import Mathlib

/-!
Shallow embedding of `src/main.py` (Corewar Marble): the log-line parser,
the per-tick log driver, the per-frame interpolation, and the CLI entry
point, together with theorems settling the frozen claims about them.

Lines are modelled as `List Char`; distances and durations as `ℚ`.
-/

namespace CorewarMarble

/-- Constant `LINE_TIME: float = 0.4` — seconds per log line. -/
def LINE_TIME : ℚ := 2/5

/-- Constant `STEP_DIST: float = 4.0` — units advanced per alive ping. -/
def STEP_DIST : ℚ := 4

/-- Constant `SPEED = STEP_DIST / LINE_TIME` — auto-derived marble speed. -/
def SPEED : ℚ := STEP_DIST / LINE_TIME

/-- Constant `LANES_X = [-15, -5, 5, 15]` — the four starting X positions. -/
def LANES_X : List Int := [-15, -5, 5, 15]

/-- Consume an exact literal from the front of a line, returning the rest,
none if the line does not start with the literal. -/
def eatLit : List Char → List Char → Option (List Char)
  | [], s => some s
  | _ :: _, [] => none
  | c :: p, d :: s => if c = d then eatLit p s else none

/-- Anchored match of the pattern `The player \d+\(([^)]+)\)` followed by the
given literal tail, as `re.match` does for `R_ALIVE` / `R_WIN`: anchored at
the start of the line only, trailing characters permitted.  Returns the
captured group (the text between the parentheses). -/
def matchPlayerLine (tailLit : List Char) (line : List Char) : Option (List Char) :=
  match eatLit "The player ".toList line with
  | none => none
  | some r1 =>
    if r1.takeWhile Char.isDigit = [] then none
    else
      match r1.dropWhile Char.isDigit with
      | '(' :: r3 =>
        if r3.takeWhile (fun c => !(c == ')')) = [] then none
        else
          match r3.dropWhile (fun c => !(c == ')')) with
          | ')' :: r5 =>
            match eatLit tailLit r5 with
            | some _ => some (r3.takeWhile (fun c => !(c == ')')))
            | none => none
          | _ => none
      | _ => none

/-- The typed events a log line can produce. -/
inductive Event where
  | alive (name : List Char)
  | won (name : List Char)
  | ignored
  deriving DecidableEq, Repr

/-- The event a single (already stripped) line produces: `R_ALIVE` is tried
first, then `R_WIN`, as in `_tick_log`. -/
def lineEvent (line : List Char) : Event :=
  match matchPlayerLine " is alive.".toList line with
  | some n => .alive n
  | none =>
    match matchPlayerLine " has won.".toList line with
    | some n => .won n
    | none => .ignored

/-- The observable per-marble state of `Player` (`travelled`, `target`) plus
the lane index assigned at creation and the gold "winner" mark. -/
structure Player where
  lane : Nat
  travelled : ℚ
  target : ℚ
  winner : Bool
  deriving DecidableEq, Repr

/-- Driver status: `Task.again` keeps the tick scheduled (`Running`);
`Task.done` stops it permanently (`Finished`). -/
inductive Status where
  | Running
  | Finished
  deriving DecidableEq, Repr

/-- The state owned by the `CorewarMarble` application: the insertion-ordered
player registry (`_players`), the lane counter (`_next_lane`), the remaining
cleaned log lines (`_log_lines`), and whether the tick task is still live. -/
structure DriverState where
  players : List (List Char × Player)
  nextLane : Nat
  lines : List (List Char)
  status : Status
  deriving DecidableEq, Repr

/-- Dictionary lookup in the insertion-ordered registry. -/
def findPlayer (ps : List (List Char × Player)) (n : List Char) : Option Player :=
  match ps with
  | [] => none
  | (k, p) :: rest => if k = n then some p else findPlayer rest n

/-- Update the named player's record in place. -/
def updateAssoc (ps : List (List Char × Player)) (n : List Char)
    (f : Player → Player) : List (List Char × Player) :=
  ps.map (fun kp => if kp.1 = n then (kp.1, f kp.2) else kp)

/-- Effect of `_ensure_player` followed by `player.target += STEP_DIST` on an Alive
event: reuse the existing record, or create one in the next lane. -/
def applyAlive (s : DriverState) (n : List Char) : DriverState :=
  match findPlayer s.players n with
  | some _ =>
    { s with players :=
        updateAssoc s.players n (fun p => { p with target := p.target + STEP_DIST }) }
  | none =>
    { s with
      players := s.players ++ [(n, ⟨s.nextLane, 0, STEP_DIST, false⟩)],
      nextLane := s.nextLane + 1 }

/-- The Won branch: same lookup/creation and target bump, plus the gold
winner mark; the tick returns `Task.done` (status becomes `Finished`). -/
def applyWon (s : DriverState) (n : List Char) : DriverState :=
  match findPlayer s.players n with
  | some _ =>
    { s with
      players :=
        updateAssoc s.players n
          (fun p => { p with target := p.target + STEP_DIST, winner := true }),
      status := .Finished }
  | none =>
    { s with
      players := s.players ++ [(n, ⟨s.nextLane, 0, STEP_DIST, true⟩)],
      nextLane := s.nextLane + 1,
      status := .Finished }

/-- One `_tick_log` step.  A `Finished` driver is never rescheduled, so the
step is the identity there; otherwise the next line is consumed: end of log
finishes the driver, an Alive line bumps its player, a Won line bumps,
marks gold and finishes, any other line contributes nothing. -/
def tick (s : DriverState) : DriverState :=
  match s.status with
  | .Finished => s
  | .Running =>
    match s.lines with
    | [] => { s with status := .Finished }
    | l :: rest =>
      match lineEvent l with
      | .alive n => { applyAlive s n with lines := rest }
      | .won n => { applyWon s n with lines := rest }
      | .ignored => { s with lines := rest }

/-- Iterate the tick `n` times. -/
def runTicks (s : DriverState) : Nat → DriverState
  | 0 => s
  | n + 1 => runTicks (tick s) n

/-- One `_lerp_marbles` update of a single player for a frame of duration
`dt`: players short of their target advance by `min (SPEED * dt) remaining`. -/
def lerpPlayer (dt : ℚ) (p : Player) : Player :=
  if p.travelled < p.target then
    { p with travelled := p.travelled + min (SPEED * dt) (p.target - p.travelled) }
  else p

/-- One `_lerp_marbles` frame over the whole registry. -/
def lerp (dt : ℚ) (s : DriverState) : DriverState :=
  { s with players := s.players.map (fun kp => (kp.1, lerpPlayer dt kp.2)) }

/-- Python `str.strip()`: drop leading and trailing whitespace. -/
def strip (l : List Char) : List Char :=
  ((l.dropWhile Char.isWhitespace).reverse.dropWhile Char.isWhitespace).reverse

/-- Embedding of `_clean`: the iterator of non-blank, stripped lines. -/
def clean (ls : List (List Char)) : List (List Char) :=
  (ls.map strip).filter (fun l => l ≠ [])

/-- The state `__init__` builds from the raw log lines. -/
def initState (ls : List (List Char)) : DriverState :=
  ⟨[], 0, clean ls, .Running⟩

/-- A single scheduled step of the application: either a log tick or an
interpolation frame of non-negative duration. -/
inductive Step : DriverState → DriverState → Prop where
  | tick (s : DriverState) : Step s (tick s)
  | lerp (s : DriverState) (dt : ℚ) (h : 0 ≤ dt) : Step s (lerp dt s)

/-- The playback invariant: every contender satisfies
`0 ≤ travelled ≤ target`. -/
def Inv (s : DriverState) : Prop :=
  ∀ kp ∈ s.players, 0 ≤ kp.2.travelled ∧ kp.2.travelled ≤ kp.2.target

/-- Modelled from the spec: the runtime cadence adjustment (halve / double
the tick duration, clamped to [0.05, 2.0]) described in §4.2 and §6 of the
spec is absent from `src/main.py` (its `_bind_keys` binds only movement
keys); only the cadence constant `LINE_TIME` appears there. -/
inductive CadenceOp where
  | halve
  | double
  deriving DecidableEq, Repr

/-- Modelled from the spec: "halving/doubling within bounds [0.05, 2.0]" —
a bounded divide / multiply by two. -/
def adjustCadence : CadenceOp → ℚ → ℚ
  | .halve, t => max (1/20) (t / 2)
  | .double, t => min 2 (t * 2)

/-- Apply a sequence of cadence adjustments starting from the default
`LINE_TIME`. -/
def applyOps (ops : List CadenceOp) : ℚ :=
  ops.foldl (fun t op => adjustCadence op t) LINE_TIME

/-- Modelled from the spec: "the visible speed of interpolation is always
`stepDistance / currentTickDuration`". -/
def speedOf (t : ℚ) : ℚ := STEP_DIST / t

/-- The possible outcomes of `main()` before the engine starts: a usage
exit, a file-not-found exit, or handing the log file's lines to the app. -/
inductive MainResult where
  | usageError
  | fileNotFound (p : List Char)
  | run (p : List Char)
  deriving DecidableEq, Repr

/-- Embedding of `main()`: `sys.exit` with a usage message unless `len(sys.argv) == 2`,
`sys.exit` with "Fichier introuvable" unless the path is a file, otherwise
open the log and start the app.  `argv` is the full `sys.argv` (program
name included); file existence is a parameter of the model. -/
def mainModel (argv : List (List Char)) (isFile : List Char → Bool) : MainResult :=
  if h : argv.length = 2 then
    let p := argv.get ⟨1, by omega⟩
    if isFile p then .run p else .fileNotFound p
  else .usageError

/-! ### Parser lemmas -/

/-- Eating a literal off a line that starts with it leaves the rest. -/
theorem eatLit_append (p r : List Char) : eatLit p (p ++ r) = some r := by
  induction p with
  | nil => rfl
  | cons c cs ih => simp [eatLit, ih]

/-- Splitting `takeWhile` at the first element that falsifies the predicate. -/
theorem takeWhile_append_sep (p : Char → Bool) (a : List Char) (b : Char) (r : List Char)
    (h1 : ∀ c ∈ a, p c = true) (h2 : p b = false) :
    (a ++ b :: r).takeWhile p = a := by
  induction a with
  | nil => simp [List.takeWhile, h2]
  | cons c cs ih =>
    have hc : p c = true := h1 c (by simp)
    have ih2 := ih (fun x hx => h1 x (by simp [hx]))
    simp [List.takeWhile_cons, hc, ih2]

/-- Splitting `dropWhile` at the first element that falsifies the predicate. -/
theorem dropWhile_append_sep (p : Char → Bool) (a : List Char) (b : Char) (r : List Char)
    (h1 : ∀ c ∈ a, p c = true) (h2 : p b = false) :
    (a ++ b :: r).dropWhile p = b :: r := by
  induction a with
  | nil => simp [List.dropWhile, h2]
  | cons c cs ih =>
    have hc : p c = true := h1 c (by simp)
    have ih2 := ih (fun x hx => h1 x (by simp [hx]))
    simp [List.dropWhile_cons, hc, ih2]

/-- On a line of the exact regex shape, the match reduces to trying the
literal tail against the suffix after the closing parenthesis. -/
theorem matchPlayerLine_shape (tailLit N X suffix : List Char)
    (hN : N ≠ []) (hNd : ∀ c ∈ N, c.isDigit = true)
    (hX : X ≠ []) (hXp : ∀ c ∈ X, c ≠ ')') :
    matchPlayerLine tailLit
      ("The player ".toList ++ (N ++ ('(' :: (X ++ (')' :: suffix))))) =
      (match eatLit tailLit suffix with
       | some _ => some X
       | none => none) := by
  unfold matchPlayerLine
  rw [eatLit_append]
  have htake : (N ++ '(' :: (X ++ (')' :: suffix))).takeWhile Char.isDigit = N :=
    takeWhile_append_sep _ _ _ _ hNd (by decide)
  have hdrop : (N ++ '(' :: (X ++ (')' :: suffix))).dropWhile Char.isDigit =
      '(' :: (X ++ (')' :: suffix)) :=
    dropWhile_append_sep _ _ _ _ hNd (by decide)
  simp only [htake, hdrop, if_neg hN]
  have hXb : ∀ c ∈ X, (!(c == ')')) = true := by
    intro c hc
    simp [hXp c hc]
  have htake2 : (X ++ (')' :: suffix)).takeWhile (fun c => !(c == ')')) = X :=
    takeWhile_append_sep _ _ _ _ hXb (by decide)
  have hdrop2 : (X ++ (')' :: suffix)).dropWhile (fun c => !(c == ')')) = ')' :: suffix :=
    dropWhile_append_sep _ _ _ _ hXb (by decide)
  simp only [htake2, hdrop2, if_neg hX]

/-- The alive tail literal never matches at a has-won suffix. -/
theorem eatLit_alive_not_won (extra : List Char) :
    eatLit " is alive.".toList (" has won.".toList ++ extra) = none := rfl

/-- A line of the exact alive shape, with arbitrary trailing characters,
produces `Alive X`. -/
theorem lineEvent_alive_shape (N X extra : List Char)
    (hN : N ≠ []) (hNd : ∀ c ∈ N, c.isDigit = true)
    (hX : X ≠ []) (hXp : ∀ c ∈ X, c ≠ ')') :
    lineEvent ("The player ".toList ++
        (N ++ ('(' :: (X ++ (')' :: (" is alive.".toList ++ extra)))))) = .alive X := by
  unfold lineEvent
  rw [matchPlayerLine_shape _ _ _ _ hN hNd hX hXp, eatLit_append]

/-- A line of the exact won shape, with arbitrary trailing characters,
produces `Won X` (the alive pattern fails on it first). -/
theorem lineEvent_won_shape (N X extra : List Char)
    (hN : N ≠ []) (hNd : ∀ c ∈ N, c.isDigit = true)
    (hX : X ≠ []) (hXp : ∀ c ∈ X, c ≠ ')') :
    lineEvent ("The player ".toList ++
        (N ++ ('(' :: (X ++ (')' :: (" has won.".toList ++ extra)))))) = .won X := by
  unfold lineEvent
  rw [matchPlayerLine_shape _ _ _ _ hN hNd hX hXp, eatLit_alive_not_won,
    matchPlayerLine_shape _ _ _ _ hN hNd hX hXp, eatLit_append]

/-- Any successful match yields a non-empty captured name containing no
closing parenthesis. -/
theorem matchPlayerLine_name (t l n : List Char) (h : matchPlayerLine t l = some n) :
    n ≠ [] ∧ ∀ c ∈ n, c ≠ ')' := by
  unfold matchPlayerLine at h
  repeat' split at h
  any_goals exact Option.noConfusion h
  injection h with h
  subst h
  refine ⟨by assumption, ?_⟩
  intro c hc
  have hp := List.mem_takeWhile_imp hc
  simpa using hp

/-- Producing an Alive event means the alive pattern matched. -/
theorem lineEvent_alive_inv (l n : List Char) (h : lineEvent l = .alive n) :
    matchPlayerLine " is alive.".toList l = some n := by
  unfold lineEvent at h
  split at h
  · rename_i n1 heq
    injection h with h
    rw [← h]
    exact heq
  · split at h <;> simp_all

/-- Producing a Won event means the won pattern matched. -/
theorem lineEvent_won_inv (l n : List Char) (h : lineEvent l = .won n) :
    matchPlayerLine " has won.".toList l = some n := by
  unfold lineEvent at h
  split at h
  · simp_all
  · split at h
    · rename_i n1 heq
      injection h with h
      rw [← h]
      exact heq
    · simp_all

/-! ### Driver lemmas -/

/-- Positivity of the step distance. -/
theorem STEP_DIST_pos : (0:ℚ) < STEP_DIST := by norm_num [STEP_DIST]

/-- Non-negativity of the derived marble speed. -/
theorem SPEED_nonneg : (0:ℚ) ≤ SPEED := by norm_num [SPEED, STEP_DIST, LINE_TIME]

/-- Updating the registry in place is a key-preserving value map. -/
theorem updateAssoc_eq_mapVal (ps : List (List Char × Player)) (m : List Char)
    (f : Player → Player) :
    updateAssoc ps m f = ps.map (fun kp => (kp.1, if kp.1 = m then f kp.2 else kp.2)) := by
  unfold updateAssoc
  congr 1
  funext kp
  by_cases h : kp.1 = m <;> simp [h]

/-- Lookup through a key-preserving value map. -/
theorem findPlayer_mapVal (g : List Char → Player → Player)
    (ps : List (List Char × Player)) (n : List Char) :
    findPlayer (ps.map (fun kp => (kp.1, g kp.1 kp.2))) n = (findPlayer ps n).map (g n) := by
  induction ps with
  | nil => rfl
  | cons kp rest ih =>
    obtain ⟨k, p⟩ := kp
    by_cases h : k = n
    · subst h
      simp [findPlayer]
    · simp [findPlayer, h, ih]

/-- Lookup after an in-place update. -/
theorem findPlayer_updateAssoc (ps : List (List Char × Player)) (m : List Char)
    (f : Player → Player) (n : List Char) :
    findPlayer (updateAssoc ps m f) n =
      (findPlayer ps n).map (fun p => if n = m then f p else p) := by
  rw [updateAssoc_eq_mapVal]
  exact findPlayer_mapVal (fun k p => if k = m then f p else p) ps n

/-- Lookup after appending a fresh entry at the back. -/
theorem findPlayer_append_single (ps : List (List Char × Player)) (m : List Char)
    (p0 : Player) (n : List Char) :
    findPlayer (ps ++ [(m, p0)]) n =
      (match findPlayer ps n with
       | some p => some p
       | none => if m = n then some p0 else none) := by
  induction ps with
  | nil => simp [findPlayer]
  | cons kp rest ih =>
    obtain ⟨k, p⟩ := kp
    by_cases h : k = n <;> simp [findPlayer, h, ih]

/-- An Alive event preserves the playback invariant. -/
theorem Inv_applyAlive (s : DriverState) (n : List Char) (h : Inv s) :
    Inv (applyAlive s n) := by
  unfold applyAlive
  split
  · intro kp hkp
    simp only [updateAssoc, List.mem_map] at hkp
    obtain ⟨kq, hkq, rfl⟩ := hkp
    have hq := h kq hkq
    by_cases hm : kq.1 = n
    · simp only [if_pos hm]
      refine ⟨hq.1, ?_⟩
      have h2 := hq.2
      have h3 := STEP_DIST_pos
      linarith
    · simp only [if_neg hm]
      exact hq
  · intro kp hkp
    simp only [List.mem_append, List.mem_singleton] at hkp
    rcases hkp with hkp | rfl
    · exact h kp hkp
    · exact ⟨le_refl 0, le_of_lt STEP_DIST_pos⟩

/-- A Won event preserves the playback invariant. -/
theorem Inv_applyWon (s : DriverState) (n : List Char) (h : Inv s) :
    Inv (applyWon s n) := by
  unfold applyWon
  split
  · intro kp hkp
    simp only [updateAssoc, List.mem_map] at hkp
    obtain ⟨kq, hkq, rfl⟩ := hkp
    have hq := h kq hkq
    by_cases hm : kq.1 = n
    · simp only [if_pos hm]
      refine ⟨hq.1, ?_⟩
      have h2 := hq.2
      have h3 := STEP_DIST_pos
      linarith
    · simp only [if_neg hm]
      exact hq
  · intro kp hkp
    simp only [List.mem_append, List.mem_singleton] at hkp
    rcases hkp with hkp | rfl
    · exact h kp hkp
    · exact ⟨le_refl 0, le_of_lt STEP_DIST_pos⟩

/-- A log tick preserves the playback invariant. -/
theorem Inv_tick (s : DriverState) (h : Inv s) : Inv (tick s) := by
  unfold tick
  split
  · exact h
  · split
    · intro kp hkp
      exact h kp hkp
    · split
      · intro kp hkp
        exact Inv_applyAlive s _ h kp hkp
      · intro kp hkp
        exact Inv_applyWon s _ h kp hkp
      · intro kp hkp
        exact h kp hkp

/-- A single interpolated player stays within `[0, target]`. -/
theorem Inv_lerpPlayer (dt : ℚ) (hdt : 0 ≤ dt) (p : Player)
    (h1 : 0 ≤ p.travelled) (h2 : p.travelled ≤ p.target) :
    0 ≤ (lerpPlayer dt p).travelled ∧ (lerpPlayer dt p).travelled ≤ (lerpPlayer dt p).target := by
  unfold lerpPlayer
  split
  · rename_i hlt
    have hmin1 : 0 ≤ min (SPEED * dt) (p.target - p.travelled) :=
      le_min (mul_nonneg SPEED_nonneg hdt) (by linarith)
    have hmin2 : min (SPEED * dt) (p.target - p.travelled) ≤ p.target - p.travelled :=
      min_le_right _ _
    constructor
    · simp only []
      linarith
    · simp only []
      linarith
  · exact ⟨h1, h2⟩

/-- An interpolation frame preserves the playback invariant. -/
theorem Inv_lerp (dt : ℚ) (hdt : 0 ≤ dt) (s : DriverState) (h : Inv s) :
    Inv (lerp dt s) := by
  intro kp hkp
  simp only [lerp, List.mem_map] at hkp
  obtain ⟨kq, hkq, rfl⟩ := hkp
  have hq := h kq hkq
  exact Inv_lerpPlayer dt hdt kq.2 hq.1 hq.2

/-- Interpolation never touches the target. -/
theorem lerpPlayer_target (dt : ℚ) (p : Player) : (lerpPlayer dt p).target = p.target := by
  unfold lerpPlayer
  split <;> rfl

/-- Interpolation never touches the winner mark. -/
theorem lerpPlayer_winner (dt : ℚ) (p : Player) : (lerpPlayer dt p).winner = p.winner := by
  unfold lerpPlayer
  split <;> rfl

/-- An Alive event never lowers an existing contender's target. -/
theorem applyAlive_target_mono (s : DriverState) (m n : List Char) (p : Player)
    (h : findPlayer s.players n = some p) :
    ∃ p', findPlayer (applyAlive s m).players n = some p' ∧ p.target ≤ p'.target := by
  unfold applyAlive
  split
  · have hf : findPlayer (updateAssoc s.players m
        (fun q => { q with target := q.target + STEP_DIST })) n =
        some (if n = m then { p with target := p.target + STEP_DIST } else p) := by
      rw [findPlayer_updateAssoc, h]
      rfl
    refine ⟨_, hf, ?_⟩
    by_cases hm : n = m
    · simp only [if_pos hm]
      have h3 := STEP_DIST_pos
      linarith
    · simp only [if_neg hm]
      exact le_refl _
  · have hf : findPlayer (s.players ++ [(m, ⟨s.nextLane, 0, STEP_DIST, false⟩)]) n = some p := by
      rw [findPlayer_append_single, h]
    exact ⟨p, hf, le_refl _⟩

/-- A Won event never lowers an existing contender's target. -/
theorem applyWon_target_mono (s : DriverState) (m n : List Char) (p : Player)
    (h : findPlayer s.players n = some p) :
    ∃ p', findPlayer (applyWon s m).players n = some p' ∧ p.target ≤ p'.target := by
  unfold applyWon
  split
  · have hf : findPlayer (updateAssoc s.players m
        (fun q => { q with target := q.target + STEP_DIST, winner := true })) n =
        some (if n = m then { p with target := p.target + STEP_DIST, winner := true } else p) := by
      rw [findPlayer_updateAssoc, h]
      rfl
    refine ⟨_, hf, ?_⟩
    by_cases hm : n = m
    · simp only [if_pos hm]
      have h3 := STEP_DIST_pos
      linarith
    · simp only [if_neg hm]
      exact le_refl _
  · have hf : findPlayer (s.players ++ [(m, ⟨s.nextLane, 0, STEP_DIST, true⟩)]) n = some p := by
      rw [findPlayer_append_single, h]
    exact ⟨p, hf, le_refl _⟩

/-- A tick never lowers an existing contender's target. -/
theorem tick_target_mono (s : DriverState) (n : List Char) (p : Player)
    (h : findPlayer s.players n = some p) :
    ∃ p', findPlayer (tick s).players n = some p' ∧ p.target ≤ p'.target := by
  unfold tick
  split
  · exact ⟨p, h, le_refl _⟩
  · split
    · exact ⟨p, h, le_refl _⟩
    · split
      · exact applyAlive_target_mono s _ n p h
      · exact applyWon_target_mono s _ n p h
      · exact ⟨p, h, le_refl _⟩

/-- A frame never lowers an existing contender's target. -/
theorem lerp_target_mono (dt : ℚ) (s : DriverState) (n : List Char) (p : Player)
    (h : findPlayer s.players n = some p) :
    ∃ p', findPlayer (lerp dt s).players n = some p' ∧ p.target ≤ p'.target := by
  have hm : findPlayer (lerp dt s).players n = (findPlayer s.players n).map (lerpPlayer dt) :=
    findPlayer_mapVal (fun _ q => lerpPlayer dt q) s.players n
  refine ⟨lerpPlayer dt p, ?_, ?_⟩
  · rw [hm, h]
    rfl
  · rw [lerpPlayer_target]

/-- The initial state has no contenders, so the invariant holds. -/
theorem initState_inv (ls : List (List Char)) : Inv (initState ls) := by
  intro kp hkp
  simp [initState] at hkp

/-- Every state reachable from an initial state satisfies the invariant. -/
theorem reachable_inv (ls : List (List Char)) (s : DriverState)
    (h : Relation.ReflTransGen Step (initState ls) s) : Inv s := by
  induction h with
  | refl => exact initState_inv ls
  | tail hab hbc ih =>
    cases hbc with
    | tick => exact Inv_tick _ ih
    | lerp dt hdt => exact Inv_lerp dt hdt _ ih

/-- A finished driver is never rescheduled: ticking it changes nothing. -/
theorem tick_of_finished (s : DriverState) (h : s.status = .Finished) : tick s = s := by
  unfold tick
  split
  · rfl
  · simp_all

/-- A finished driver stays fixed under any number of further ticks. -/
theorem runTicks_of_finished (s : DriverState) (h : s.status = .Finished) (k : Nat) :
    runTicks s k = s := by
  induction k with
  | zero => rfl
  | succ k ih =>
    show runTicks (tick s) k = s
    rw [tick_of_finished s h]
    exact ih

/-- Processing a Won event always finishes the driver. -/
theorem applyWon_status (s : DriverState) (n : List Char) :
    (applyWon s n).status = .Finished := by
  unfold applyWon
  split <;> rfl

/-- Ticking a running driver whose next line is a Won line. -/
theorem tick_eq_of_won (s : DriverState) (l : List Char) (rest : List (List Char))
    (n : List Char) (hs : s.status = .Running) (hl : s.lines = l :: rest)
    (he : lineEvent l = .won n) :
    tick s = { applyWon s n with lines := rest } := by
  obtain ⟨ps, nl, lns, st⟩ := s
  simp only at hs hl
  subst hs
  subst hl
  simp [tick, he]

/-- Ticking a running driver whose next line parses to no event. -/
theorem tick_eq_of_ignored (s : DriverState) (l : List Char) (rest : List (List Char))
    (hs : s.status = .Running) (hl : s.lines = l :: rest)
    (he : lineEvent l = .ignored) :
    tick s = { s with lines := rest } := by
  obtain ⟨ps, nl, lns, st⟩ := s
  simp only at hs hl
  subst hs
  subst hl
  simp [tick, he]

/-- A single cadence adjustment keeps the duration within [0.05, 2.0]. -/
theorem adjustCadence_bounds (op : CadenceOp) (t : ℚ) (h1 : 1/20 ≤ t) (h2 : t ≤ 2) :
    1/20 ≤ adjustCadence op t ∧ adjustCadence op t ≤ 2 := by
  cases op <;> simp only [adjustCadence]
  · exact ⟨le_max_left _ _, max_le (by norm_num) (by linarith)⟩
  · exact ⟨le_min (by norm_num) (by linarith), min_le_left _ _⟩

/-- Folding cadence adjustments keeps the duration within [0.05, 2.0]. -/
theorem foldl_adjust_bounds (ops : List CadenceOp) (t : ℚ) (h1 : 1/20 ≤ t) (h2 : t ≤ 2) :
    1/20 ≤ ops.foldl (fun u op => adjustCadence op u) t ∧
      ops.foldl (fun u op => adjustCadence op u) t ≤ 2 := by
  induction ops generalizing t with
  | nil => exact ⟨h1, h2⟩
  | cons op rest ih =>
    have hb := adjustCadence_bounds op t h1 h2
    simpa using ih (adjustCadence op t) hb.1 hb.2

/-- Closed form of one interpolation update: `travelled` moves to
`min (travelled + SPEED·dt) target`, for any player within its target. -/
theorem lerpPlayer_travelled (dt : ℚ) (hdt : 0 ≤ dt) (p : Player)
    (h : p.travelled ≤ p.target) :
    (lerpPlayer dt p).travelled = min (p.travelled + SPEED * dt) p.target := by
  unfold lerpPlayer
  split
  · show p.travelled + min (SPEED * dt) (p.target - p.travelled) =
      min (p.travelled + SPEED * dt) p.target
    rw [← min_add_add_left]
    congr 1
    ring
  · rename_i hnlt
    have heq : p.travelled = p.target := le_antisymm h (not_lt.mp hnlt)
    have htg : p.target ≤ p.travelled + SPEED * dt := by
      have := mul_nonneg SPEED_nonneg hdt
      linarith
    rw [min_eq_right htg, heq]

/-- Iterating the tick peels one application off the back as well. -/
theorem runTicks_succ (s : DriverState) (n : Nat) :
    runTicks s (n + 1) = tick (runTicks s n) := by
  induction n generalizing s with
  | zero => rfl
  | succ n ih =>
    show runTicks (tick s) (n + 1) = tick (runTicks (tick s) n)
    exact ih (tick s)

/-- The three-line scenario log of §8 of the spec. -/
def scenarioLog : List (List Char) :=
  ["The player 1(alice) is alive.",
   "The player 2(bob) is alive.",
   "The player 1(alice) has won."].map String.toList

/-- The scenario log with one further line after the winning line. -/
def scenarioLogExt : List (List Char) :=
  scenarioLog ++ ["The player 2(bob) is alive.".toList]

/-! ### The claims -/

/-- C1: at every state reachable from an initial state by tick and
interpolation steps, every contender satisfies `0 ≤ travelled ≤ target`;
and across any single step no contender's target decreases. -/
theorem claim1_playback_invariant :
    (∀ (ls : List (List Char)) (s : DriverState),
        Relation.ReflTransGen Step (initState ls) s →
        ∀ kp ∈ s.players, 0 ≤ kp.2.travelled ∧ kp.2.travelled ≤ kp.2.target) ∧
    (∀ (s s' : DriverState), Step s s' → ∀ (n : List Char) (p : Player),
        findPlayer s.players n = some p →
        ∃ p', findPlayer s'.players n = some p' ∧ p.target ≤ p'.target) := by
  constructor
  · intro ls s h
    exact reachable_inv ls s h
  · intro s s' hs n p h
    cases hs with
    | tick => exact tick_target_mono s n p h
    | lerp dt hdt => exact lerp_target_mono dt s n p h

/-- Witness for C1 at concrete inputs. -/
theorem claim1_witness :
    (∀ kp ∈ (initState []).players, 0 ≤ kp.2.travelled ∧ kp.2.travelled ≤ kp.2.target) ∧
    (∃ p', findPlayer
        (tick ⟨[(['a'], ⟨0, 0, STEP_DIST, false⟩)], 1, [], .Running⟩).players ['a'] =
          some p' ∧ (STEP_DIST : ℚ) ≤ p'.target) := by
  constructor
  · exact claim1_playback_invariant.1 [] (initState []) Relation.ReflTransGen.refl
  · exact claim1_playback_invariant.2 _ _ (Step.tick _) ['a'] ⟨0, 0, STEP_DIST, false⟩ rfl

/-- C2: once a tick processes a Won line, the driver is finished, the lines
after the winning line stay in place, and any number of further ticks
changes nothing. -/
theorem claim2_won_halts (s : DriverState) (l : List Char) (rest : List (List Char))
    (n : List Char) (hs : s.status = .Running) (hl : s.lines = l :: rest)
    (he : lineEvent l = .won n) :
    (tick s).status = .Finished ∧ (tick s).lines = rest ∧
      ∀ k, runTicks (tick s) k = tick s := by
  have ht := tick_eq_of_won s l rest n hs hl he
  rw [ht]
  have hstat : ({ applyWon s n with lines := rest } : DriverState).status = .Finished := by
    show (applyWon s n).status = .Finished
    exact applyWon_status s n
  exact ⟨hstat, rfl, fun k => runTicks_of_finished _ hstat k⟩

/-- Witness for C2 at a concrete log with a line after the winning line. -/
theorem claim2_witness :
    (tick ⟨[], 0, ["The player 1(a) has won.".toList, "extra".toList], .Running⟩).status =
        .Finished ∧
    (tick ⟨[], 0, ["The player 1(a) has won.".toList, "extra".toList], .Running⟩).lines =
        ["extra".toList] ∧
    runTicks (tick ⟨[], 0, ["The player 1(a) has won.".toList, "extra".toList], .Running⟩) 5 =
      tick ⟨[], 0, ["The player 1(a) has won.".toList, "extra".toList], .Running⟩ := by
  have h := claim2_won_halts ⟨[], 0, ["The player 1(a) has won.".toList, "extra".toList], .Running⟩
    "The player 1(a) has won.".toList ["extra".toList] ['a'] rfl rfl (by decide)
  exact ⟨h.1, h.2.1, h.2.2 5⟩

/-- C3: on the three-line scenario log the driver creates exactly the two
contenders alice (lane 0) and bob (lane 1), alice ends at target
`2 × STEP_DIST` marked winner, bob at `1 × STEP_DIST`, the driver is
finished after the third tick, and a line present after the winning line
is never consumed. -/
theorem claim3_scenario :
    (runTicks (initState scenarioLog) 3).players.map Prod.fst =
        ["alice".toList, "bob".toList] ∧
    (findPlayer (runTicks (initState scenarioLog) 3).players "alice".toList).map Player.lane =
        some 0 ∧
    (findPlayer (runTicks (initState scenarioLog) 3).players "bob".toList).map Player.lane =
        some 1 ∧
    (findPlayer (runTicks (initState scenarioLog) 3).players "alice".toList).map Player.target =
        some (2 * STEP_DIST) ∧
    (findPlayer (runTicks (initState scenarioLog) 3).players "alice".toList).map Player.winner =
        some true ∧
    (findPlayer (runTicks (initState scenarioLog) 3).players "bob".toList).map Player.target =
        some (1 * STEP_DIST) ∧
    (findPlayer (runTicks (initState scenarioLog) 3).players "bob".toList).map Player.winner =
        some false ∧
    (runTicks (initState scenarioLog) 3).status = .Finished ∧
    (runTicks (initState scenarioLogExt) 3).status = .Finished ∧
    (runTicks (initState scenarioLogExt) 3).lines = ["The player 2(bob) is alive.".toList] ∧
    runTicks (initState scenarioLogExt) 4 = runTicks (initState scenarioLogExt) 3 := by
  have hfin : (runTicks (initState scenarioLogExt) 3).status = .Finished := by decide
  refine ⟨by decide, by decide, by decide, ?_, by decide, ?_, by decide, by decide, hfin,
    by decide, ?_⟩
  · have h2 : (2 : ℚ) * STEP_DIST = STEP_DIST + STEP_DIST := by ring
    rw [h2]
    rfl
  · have h1 : (1 : ℚ) * STEP_DIST = STEP_DIST := by ring
    rw [h1]
    rfl
  · rw [runTicks_succ]
    exact tick_of_finished _ hfin

/-- C4: every line of the exact shape `The player N(X) is alive.` parses to
the single event `Alive X`, with `X` taken verbatim. -/
theorem claim4_alive_parse (N X : List Char)
    (hN : N ≠ []) (hNd : ∀ c ∈ N, c.isDigit = true)
    (hX : X ≠ []) (hXp : ∀ c ∈ X, c ≠ ')') :
    lineEvent ("The player ".toList ++ N ++ "(".toList ++ X ++ ") is alive.".toList) =
      .alive X := by
  have h := lineEvent_alive_shape N X [] hN hNd hX hXp
  simp only [List.append_nil] at h
  have e1 : (") is alive.".toList : List Char) = ')' :: " is alive.".toList := rfl
  have e2 : ("(".toList : List Char) = ['('] := rfl
  rw [e1, e2]
  simpa [List.append_assoc] using h

/-- Witness for C4 at a concrete alive line. -/
theorem claim4_witness :
    lineEvent ("The player ".toList ++ "1".toList ++ "(".toList ++ "alice".toList ++
        ") is alive.".toList) = .alive "alice".toList :=
  claim4_alive_parse "1".toList "alice".toList (by decide) (by decide) (by decide) (by decide)

/-- C5: a line matching neither pattern is consumed without any event:
players, lane counter and status are untouched and the driver moves on to
the following lines; blank lines are already removed by `_clean`. -/
theorem claim5_ignored_line (s : DriverState) (l : List Char) (rest : List (List Char))
    (hs : s.status = .Running) (hl : s.lines = l :: rest) (he : lineEvent l = .ignored) :
    tick s = { s with lines := rest } ∧
    (∀ (raw : List Char) (ls : List (List Char)),
        strip raw = [] → clean (raw :: ls) = clean ls) := by
  refine ⟨tick_eq_of_ignored s l rest hs hl he, ?_⟩
  intro raw ls hraw
  simp [clean, hraw]

/-- Witness for C5 at the spec's unrecognized line. -/
theorem claim5_witness :
    tick ⟨[(['a'], ⟨0, 0, STEP_DIST, false⟩)], 1,
        ["Warning: low cycles".toList, "The player 1(a) is alive.".toList], .Running⟩ =
      ⟨[(['a'], ⟨0, 0, STEP_DIST, false⟩)], 1,
        ["The player 1(a) is alive.".toList], .Running⟩ ∧
    clean [[' ']] = clean [] := by
  have h := claim5_ignored_line
    ⟨[(['a'], ⟨0, 0, STEP_DIST, false⟩)], 1,
      ["Warning: low cycles".toList, "The player 1(a) is alive.".toList], .Running⟩
    "Warning: low cycles".toList ["The player 1(a) is alive.".toList] rfl rfl (by decide)
  exact ⟨h.1, h.2 [' '] [] (by decide)⟩

/-- C6: any sequence of halve/double cadence adjustments starting from the
default keeps the tick duration within [0.05, 2.0], and the interpolation
speed is the step distance divided by the tick duration. -/
theorem claim6_cadence_bounds :
    (∀ ops : List CadenceOp, 1/20 ≤ applyOps ops ∧ applyOps ops ≤ 2) ∧
    SPEED = STEP_DIST / LINE_TIME ∧
    (∀ t : ℚ, speedOf t = STEP_DIST / t) := by
  refine ⟨?_, rfl, fun t => rfl⟩
  intro ops
  exact foldl_adjust_bounds ops LINE_TIME (by norm_num [LINE_TIME]) (by norm_num [LINE_TIME])

/-- Counterexample to C7 as stated: a contender already marked winner is
still advanced by the interpolation step. -/
theorem claim7_counterexample :
    (findPlayer (⟨[(['w'], ⟨0, 0, STEP_DIST, true⟩)], 1, [], .Running⟩ :
        DriverState).players ['w']).map Player.winner = some true ∧
    (findPlayer (lerp (1/10)
        ⟨[(['w'], ⟨0, 0, STEP_DIST, true⟩)], 1, [], .Running⟩).players ['w']).map
        Player.travelled ≠ some 0 := by
  constructor
  · rfl
  · have hm : findPlayer (lerp (1/10)
        (⟨[(['w'], ⟨0, 0, STEP_DIST, true⟩)], 1, [], .Running⟩ : DriverState)).players ['w'] =
        some (lerpPlayer (1/10) ⟨0, 0, STEP_DIST, true⟩) := rfl
    rw [hm]
    intro h
    have h2 : (lerpPlayer (1/10) ⟨0, 0, STEP_DIST, true⟩).travelled = 0 := by
      simpa using h
    rw [lerpPlayer_travelled (1/10) (by norm_num) _ (by norm_num [STEP_DIST])] at h2
    norm_num [SPEED, STEP_DIST, LINE_TIME] at h2

/-- C7 amended: the interpolation step advances every contender short of
its target — winner or not — moving `travelled` to
`min (travelled + SPEED·dt) target`, never overshooting, and leaving
`target` and the winner mark unchanged. -/
theorem claim7_lerp_updates_all (dt : ℚ) (s : DriverState) (n : List Char) (p : Player)
    (hdt : 0 ≤ dt) (hf : findPlayer s.players n = some p) (h : p.travelled ≤ p.target) :
    ∃ p', findPlayer (lerp dt s).players n = some p' ∧
      p'.travelled = min (p.travelled + SPEED * dt) p.target ∧
      p'.target = p.target ∧ p'.winner = p.winner := by
  have hm : findPlayer (lerp dt s).players n = (findPlayer s.players n).map (lerpPlayer dt) :=
    findPlayer_mapVal (fun _ q => lerpPlayer dt q) s.players n
  refine ⟨lerpPlayer dt p, ?_, lerpPlayer_travelled dt hdt p h,
    lerpPlayer_target dt p, lerpPlayer_winner dt p⟩
  rw [hm, hf]
  rfl

/-- Witness for the amended C7 at a concrete winner contender. -/
theorem claim7_witness :
    ∃ p', findPlayer (lerp (1/10)
        (⟨[(['w'], ⟨0, 0, STEP_DIST, true⟩)], 1, [], .Running⟩ : DriverState)).players ['w'] =
          some p' ∧
      p'.travelled = min ((0 : ℚ) + SPEED * (1/10)) STEP_DIST ∧
      p'.target = STEP_DIST ∧ p'.winner = true :=
  claim7_lerp_updates_all (1/10) ⟨[(['w'], ⟨0, 0, STEP_DIST, true⟩)], 1, [], .Running⟩
    ['w'] ⟨0, 0, STEP_DIST, true⟩ (by norm_num) rfl (by norm_num [STEP_DIST])

/-- C8: `main` run with other than exactly one positional argument exits
with the usage message; run with one argument that is not a file it exits
with the file-not-found message; the app only starts on a single existing
file (so neither error path ever reaches log processing). -/
theorem claim8_cli_errors (argv : List (List Char)) (isFile : List Char → Bool) :
    (argv.length ≠ 2 → mainModel argv isFile = .usageError) ∧
    (∀ prog p, argv = [prog, p] → isFile p = false →
        mainModel argv isFile = .fileNotFound p) ∧
    (∀ p, mainModel argv isFile = .run p → argv.length = 2 ∧ isFile p = true) := by
  refine ⟨?_, ?_, ?_⟩
  · intro h
    unfold mainModel
    rw [dif_neg h]
  · intro prog p hargv hfile
    subst hargv
    simp [mainModel, hfile]
  · intro p h
    unfold mainModel at h
    split at h
    · dsimp only at h
      split at h
      · rename_i h2 hf
        injection h with h
        subst h
        exact ⟨h2, hf⟩
      · exact MainResult.noConfusion h
    · exact MainResult.noConfusion h

/-- Witness for C8 on concrete argument vectors. -/
theorem claim8_witness :
    mainModel [] (fun _ => true) = .usageError ∧
    mainModel ["prog".toList, "nofile".toList] (fun _ => false) =
        .fileNotFound "nofile".toList ∧
    (("prog".toList : List Char) :: ["log".toList]).length = 2 := by
  refine ⟨?_, ?_, ?_⟩
  · exact (claim8_cli_errors [] (fun _ => true)).1 (by decide)
  · exact (claim8_cli_errors ["prog".toList, "nofile".toList] (fun _ => false)).2.1
      "prog".toList "nofile".toList rfl rfl
  · exact ((claim8_cli_errors ["prog".toList, "log".toList] (fun _ => true)).2.2
      "log".toList rfl).1

/-- C9: a line that begins with the alive or won shape and continues with
arbitrary trailing characters still produces the corresponding event:
matching is anchored at the start only. -/
theorem claim9_trailing_text (N X extra : List Char)
    (hN : N ≠ []) (hNd : ∀ c ∈ N, c.isDigit = true)
    (hX : X ≠ []) (hXp : ∀ c ∈ X, c ≠ ')') :
    lineEvent ("The player ".toList ++ N ++ "(".toList ++ X ++ ") is alive.".toList ++ extra) =
        .alive X ∧
    lineEvent ("The player ".toList ++ N ++ "(".toList ++ X ++ ") has won.".toList ++ extra) =
        .won X := by
  constructor
  · have h := lineEvent_alive_shape N X extra hN hNd hX hXp
    have e1 : (") is alive.".toList : List Char) = ')' :: " is alive.".toList := rfl
    have e2 : ("(".toList : List Char) = ['('] := rfl
    rw [e1, e2]
    simpa [List.append_assoc] using h
  · have h := lineEvent_won_shape N X extra hN hNd hX hXp
    have e1 : (") has won.".toList : List Char) = ')' :: " has won.".toList := rfl
    have e2 : ("(".toList : List Char) = ['('] := rfl
    rw [e1, e2]
    simpa [List.append_assoc] using h

/-- Witness for C9 at the spec's example line with trailing text. -/
theorem claim9_witness :
    lineEvent ("The player ".toList ++ "1".toList ++ "(".toList ++ "x".toList ++
        ") is alive.".toList ++ " trailing text".toList) = .alive "x".toList ∧
    lineEvent ("The player ".toList ++ "1".toList ++ "(".toList ++ "x".toList ++
        ") has won.".toList ++ " trailing text".toList) = .won "x".toList :=
  claim9_trailing_text "1".toList "x".toList " trailing text".toList
    (by decide) (by decide) (by decide) (by decide)

/-- C10: every parsed name is non-empty and free of closing parentheses;
in particular empty parentheses or a parenthesis inside the name yield no
event. -/
theorem claim10_name_shape :
    (∀ l n, lineEvent l = .alive n → n ≠ [] ∧ ∀ c ∈ n, c ≠ ')') ∧
    (∀ l n, lineEvent l = .won n → n ≠ [] ∧ ∀ c ∈ n, c ≠ ')') ∧
    lineEvent "The player 1() is alive.".toList = .ignored ∧
    lineEvent "The player 1(a)b) is alive.".toList = .ignored := by
  refine ⟨?_, ?_, by decide, by decide⟩
  · intro l n h
    exact matchPlayerLine_name _ l n (lineEvent_alive_inv l n h)
  · intro l n h
    exact matchPlayerLine_name _ l n (lineEvent_won_inv l n h)

/-- Witness for C10 at concrete alive and won lines. -/
theorem claim10_witness :
    ("alice".toList ≠ ([] : List Char) ∧ ∀ c ∈ "alice".toList, c ≠ ')') ∧
    ("bob".toList ≠ ([] : List Char) ∧ ∀ c ∈ "bob".toList, c ≠ ')') := by
  constructor
  · exact claim10_name_shape.1 "The player 1(alice) is alive.".toList "alice".toList (by decide)
  · exact claim10_name_shape.2.1 "The player 2(bob) has won.".toList "bob".toList (by decide)

end CorewarMarble
